import Mathlib

/-!
Verification development for the neomap crawler and link-graph store.

The Rust sources are embedded shallowly:
* `src/lib.rs` — `is_in_site` (host classification);
* `src/pagecrawler.rs` — `is_url_html`, `PageCrawler::crawl`;
* `src/page.rs` — `get_href_links` / `get_src_links` (regex scans) and
  `Page::get_links` (reference resolution);
* `src/database.rs` — the sqlite-backed link-graph store (`set_site`,
  `set_link`, `delete_site_by_url`, `get_site_with_oldest_crawltime`,
  `get_links_by_srcurl`).

External collaborators (the `url` crate and sqlite) are modelled from their
documented behaviour exactly as the repository exercises them; each such
model carries a comment citing the behaviour it reflects.
-/

namespace Neomap

/-! ## URL model

Models `url::Url` as used by this repository.  `Url::host()` distinguishes
DNS-domain hosts from IP-address hosts; `Url::domain()` returns the host
string only for DNS-domain hosts (`None` for IP hosts and host-less URLs).
-/

/-- Host of a URL: absent, a DNS domain, or an IP address (the `url` crate's
`Host::Domain` vs `Host::Ipv4`/`Host::Ipv6`). -/
inductive HostM where
  | none : HostM
  | domain (s : String) : HostM
  | ip (s : String) : HostM
deriving DecidableEq, Repr

/-- Shallow model of `url::Url`: the components the repository reads. -/
structure UrlM where
  scheme : String
  host : HostM
  path : String
  query : Option String
  fragment : Option String
deriving DecidableEq, Repr

/-- Model of `Url::domain()`: the host string when the host is a DNS domain,
`none` otherwise (IP hosts and host-less URLs). -/
def domainOf (u : UrlM) : Option String :=
  match u.host with
  | HostM.domain s => some s
  | _ => none

/-- Model of `Url::cannot_be_a_base()`: true exactly for host-less
(path-only, opaque) URLs in the fragment of the crate this repository uses. -/
def cannotBeABase (u : UrlM) : Bool :=
  u.host == HostM.none

/-- Model of `is_in_site` from `src/lib.rs`:
`url.domain() == siteurl.domain()`. -/
def is_in_site (url siteurl : UrlM) : Bool :=
  domainOf url == domainOf siteurl

/-- Model of `is_url_html` from `src/pagecrawler.rs`: lowercase the path;
HTML iff the path ends in `.html` or `.htm`, or contains no dot.  (The source
sets a mutable `ok` flag in two `if`s; the net result is this disjunction.)
Rust's `to_lowercase`/`ends_with`/`contains` are modelled at the character
level (the case fold covers ASCII, the range the repository exercises). -/
def is_url_html (url : UrlM) : Bool :=
  let path := url.path.toList.map Char.toLower
  (".html".toList.isSuffixOf path || ".htm".toList.isSuffixOf path) ||
    !(path.contains '.')

/-! ## Link-graph store model (`src/database.rs`)

The store is sqlite with the schema from `try_create_tables`:
`site(url TEXT PRIMARY KEY, crawltime INTEGER NOT NULL)` and
`link(srcurl, dsturl, PRIMARY KEY(srcurl,dsturl), FOREIGN KEY(srcurl)
REFERENCES site(url) ON UPDATE CASCADE ON DELETE CASCADE)`.
Tables are modelled as row lists in insertion order (sqlite `UPDATE` keeps a
row in place).  Foreign-key enforcement is modelled as ON, which is the
behaviour the repository's own tests assert (`set_link_no_site` expects the
foreign-key error; `delete_site_deletes_links` expects the cascade). -/

/-- Site row: url (primary key) and crawltime (i64 unix seconds). -/
abbrev SiteRow := String × Int

/-- Link row: (srcurl, dsturl), composite primary key. -/
abbrev LinkRow := String × String

/-- Database state: the two tables. -/
structure DB where
  site : List SiteRow
  link : List LinkRow
deriving DecidableEq, Repr

/-- Fresh database, as produced by `Database::connect` on a new file. -/
def DB.empty : DB := ⟨[], []⟩

/-- Model of `Database::set_site`:
`INSERT INTO site (url, crawltime) VALUES (?1, ?2) ON CONFLICT(url) DO
UPDATE SET crawltime = excluded.crawltime`.  On key collision only the
crawltime changes; otherwise the row is appended. -/
def set_site (db : DB) (s : SiteRow) : DB :=
  if db.site.any (fun r => r.1 == s.1) then
    { db with site := db.site.map (fun r => if r.1 == s.1 then (r.1, s.2) else r) }
  else
    { db with site := db.site ++ [s] }

/-- Model of `Database::set_link`:
`INSERT INTO link (srcurl, dsturl) VALUES (?1, ?2) ON CONFLICT(srcurl,
dsturl) DO UPDATE SET srcurl = excluded.srcurl, dsturl = excluded.dsturl`.
With foreign keys enforced (see module comment), an absent source site makes
sqlite reject the statement with a FOREIGN KEY constraint error and the
`execute` call returns `Err`; the database is unchanged in that case.  A
conflicting (srcurl,dsturl) pair updates the key to itself: a no-op. -/
def set_link (db : DB) (l : LinkRow) : Except String Unit × DB :=
  if db.site.any (fun r => r.1 == l.1) then
    if db.link.any (fun r => r == l) then
      (Except.ok (), db)
    else
      (Except.ok (), { db with link := db.link ++ [l] })
  else
    (Except.error "FOREIGN KEY constraint failed", db)

/-- Model of `Database::delete_site_by_url`:
`DELETE FROM site WHERE url = ?1`; with foreign keys enforced, the
`ON DELETE CASCADE` clause also deletes every link row whose srcurl equals
the deleted site's url. -/
def delete_site_by_url (db : DB) (url : String) : DB :=
  { site := db.site.filter (fun r => !(r.1 == url)),
    link := db.link.filter (fun r => !(r.1 == url)) }

/-- Model of `Database::get_links_by_srcurl`:
`SELECT srcurl, dsturl FROM link WHERE srcurl = ?1`, rows in table order. -/
def get_links_by_srcurl (db : DB) (url : String) : List LinkRow :=
  db.link.filter (fun r => r.1 == url)

/-- Outcome of a query whose Rust wrapper can also panic (an `unwrap` inside
the row-mapping closure). -/
inductive QueryOut (α : Type) where
  | ok (a : α) : QueryOut α
  | panicked : QueryOut α
deriving DecidableEq, Repr

/-- Helper for `get_site_with_oldest_crawltime`: the first row attaining the
minimal crawltime (sqlite's bare-column-with-MIN rule guarantees the url
comes from some row where the minimum is attained; ties are arbitrary). -/
def minCrawlRow (r : SiteRow) : List SiteRow → SiteRow
  | [] => r
  | s :: ss => if s.2 < r.2 then minCrawlRow s ss else minCrawlRow r ss

/-- Model of `Database::get_site_with_oldest_crawltime`:
`SELECT url, MIN(crawltime) FROM site`.  An aggregate query without GROUP BY
always yields exactly one row; on an empty table that row is (NULL, NULL),
and the Rust mapping closure runs `row.get(0).unwrap()` which panics on a
NULL url (so `.optional()` never sees the no-row case).  On a non-empty
table the row holds the minimal crawltime together with the url of a row
attaining it. -/
def get_site_with_oldest_crawltime (db : DB) : QueryOut (Option SiteRow) :=
  match db.site with
  | [] => QueryOut.panicked
  | s :: ss => QueryOut.ok (some (minCrawlRow s ss))

/-! ## Link extraction (src/page.rs)

`get_href_links` runs the Rust regex `href="(?<url>.*?)"` with
`captures_iter`; `get_src_links` does the same for `src="(?<url>.*?)"`.
That scan is leftmost, non-overlapping, with a lazy capture that stops at
the first following quote; `.` does not match a newline, so a candidate
whose closing quote lies beyond a newline is not a match and the scan
resumes one character later.  `scanAttrF` embeds exactly that behaviour;
the fuel argument (instantiated with the input length) only serves
structural recursion and never runs out. -/

/-- Capture of the lazy `.*?"` tail: the characters before the first `"`,
together with the remainder after that quote.  Fails (no regex match from
this start) when a newline or the end of input comes first. -/
def grabValue : List Char → Option (List Char × List Char)
  | [] => none
  | c :: cs =>
    if c = '"' then some ([], cs)
    else if c = '\n' then none
    else (grabValue cs).map (fun p => (c :: p.1, p.2))

/-- Fueled scan for `pat`-prefixed quoted values, mirroring
`captures_iter`: at each position, if the pattern (which itself ends in the
opening quote) matches, capture lazily to the closing quote and resume after
it; otherwise move one character forward. -/
def scanAttrF (pat : List Char) : Nat → List Char → List (List Char)
  | 0, _ => []
  | _, [] => []
  | fuel + 1, c :: cs =>
    if pat.isPrefixOf (c :: cs) then
      match grabValue ((c :: cs).drop pat.length) with
      | some (cap, rest) => cap :: scanAttrF pat fuel rest
      | none => scanAttrF pat fuel cs
    else scanAttrF pat fuel cs

/-- Scan with enough fuel for the whole input. -/
def scanAttr (pat : List Char) (l : List Char) : List (List Char) :=
  scanAttrF pat l.length l

/-- Model of `get_href_links` from `src/page.rs`. -/
def get_href_links (html : String) : List String :=
  (scanAttr "href=\"".toList html.toList).map String.mk

/-- Model of `get_src_links` from `src/page.rs`. -/
def get_src_links (html : String) : List String :=
  (scanAttr "src=\"".toList html.toList).map String.mk

/-- Markup built from a list of raw references, each wrapped as one
`pat…"` attribute occurrence, concatenated in order. -/
def mkAttrBlocks (pat : List Char) : List (List Char) → List Char
  | [] => []
  | r :: rs => pat ++ r ++ '"' :: mkAttrBlocks pat rs

/-- Markup whose `href="…"` occurrences are exactly `rs`, in order. -/
def mkHrefMarkup (rs : List String) : String :=
  String.mk (mkAttrBlocks "href=\"".toList (rs.map String.toList))

/-- Markup whose `src="…"` occurrences are exactly `rs`, in order. -/
def mkSrcMarkup (rs : List String) : String :=
  String.mk (mkAttrBlocks "src=\"".toList (rs.map String.toList))

/-! ## URL parsing and joining (the `url` crate)

`Page::get_links` distinguishes three outcomes of `Url::parse`: success,
`ParseError::RelativeUrlWithoutBase` (no scheme), and any other error; and
it calls `Url::join` whose failure it handles differently per call site.
The crate (WHATWG URL) is external, so the slice of its behaviour the
repository exercises is modelled here: scheme detection, authority/host
parsing (an empty host or an unclosed `[` IPv6 bracket is an error),
scheme-relative (`//…`), absolute-path and relative-path references.
Dot-segment normalization and special-scheme corner cases are outside the
inputs used by any theorem below. -/

/-- Outcome of `Url::parse` as `Page::get_links` distinguishes it. -/
inductive ParseOut where
  | ok (u : UrlM) : ParseOut
  | relativeUrlWithoutBase : ParseOut
  | otherError : ParseOut
deriving DecidableEq, Repr

/-- Character allowed after the first in a URL scheme. -/
def isSchemeChar (c : Char) : Bool :=
  c.isAlphanum || c == '+' || c == '-' || c == '.'

/-- Scheme detection: an ASCII-alpha initial character, a run of scheme
characters, then `:`.  Anything else means the input is a relative
reference (`RelativeUrlWithoutBase` under `Url::parse`). -/
def schemeSplit : List Char → Option (List Char × List Char)
  | [] => none
  | c :: cs =>
    if c.isAlpha then
      match cs.dropWhile isSchemeChar with
      | ':' :: tail => some (c :: cs.takeWhile isSchemeChar, tail)
      | _ => none
    else none

/-- Character accepted in a registrable host name by this model. -/
def isHostChar (c : Char) : Bool :=
  c.isAlphanum || c == '-' || c == '.' || c == '_'

/-- Host parsing: an empty host fails; `[` must be closed by a final `]`
(otherwise the crate reports an invalid IPv6 address); an all-digit/dot
host is an IP address; otherwise a DNS domain of ordinary characters. -/
def parseHost (l : List Char) : Option HostM :=
  match l with
  | [] => none
  | '[' :: rest =>
    if rest.getLast? == some ']' then some (HostM.ip (String.mk l)) else none
  | _ =>
    if l.all (fun c => c.isDigit || c == '.') then some (HostM.ip (String.mk l))
    else if l.all isHostChar then some (HostM.domain (String.mk l))
    else none

/-- Split at the first occurrence of `sep`: the part before it and, when it
occurs, the part after it. -/
def splitAtChar (sep : Char) : List Char → List Char × Option (List Char)
  | [] => ([], none)
  | c :: cs =>
    if c = sep then ([], some cs)
    else
      let p := splitAtChar sep cs
      (c :: p.1, p.2)

/-- Path, query and fragment of the part of a URL after the authority. -/
def parsePathQF (l : List Char) : String × Option String × Option String :=
  let bf := splitAtChar '#' l
  let bq := splitAtChar '?' bf.1
  (String.mk bq.1, bq.2.map String.mk, bf.2.map String.mk)

/-- Delimiter ending the authority section. -/
def isAuthEnd (c : Char) : Bool :=
  c == '/' || c == '?' || c == '#'

/-- Remainder of `Url::parse` after the scheme: `//` introduces an
authority whose host must parse (a special-scheme URL with an empty path
serializes the path as `/`); without `//` the URL is opaque
(`cannot_be_a_base`), e.g. `mailto:`. -/
def parseAfterScheme (scheme : String) : List Char → ParseOut
  | '/' :: '/' :: tail =>
    match parseHost (tail.takeWhile (fun c => !isAuthEnd c)) with
    | none => ParseOut.otherError
    | some h =>
      let pqf := parsePathQF (tail.dropWhile (fun c => !isAuthEnd c))
      ParseOut.ok ⟨scheme, h, (if pqf.1 = "" then "/" else pqf.1), pqf.2.1, pqf.2.2⟩
  | rest =>
    let pqf := parsePathQF rest
    ParseOut.ok ⟨scheme, HostM.none, pqf.1, pqf.2.1, pqf.2.2⟩

/-- Model of `Url::parse` on the inputs the repository exercises. -/
def urlParse (s : String) : ParseOut :=
  match schemeSplit s.toList with
  | none => ParseOut.relativeUrlWithoutBase
  | some (sch, rest) => parseAfterScheme (String.mk sch) rest

/-- Prefix of a path up to and including its last `/`. -/
def lastSlashPrefix (l : List Char) : List Char :=
  (l.reverse.dropWhile (fun c => !(c = '/'))).reverse

/-- Model of `Url::join base s` for a base with a host: a `//…` reference
replaces the authority (and fails when the host is invalid, e.g. an
unclosed IPv6 bracket); a `/…` reference replaces the path; anything else
is resolved against the base path's directory. -/
def urlJoin (base : UrlM) (s : String) : Option UrlM :=
  match s.toList with
  | '/' :: '/' :: tail =>
    match parseHost (tail.takeWhile (fun c => !isAuthEnd c)) with
    | none => none
    | some h =>
      let pqf := parsePathQF (tail.dropWhile (fun c => !isAuthEnd c))
      some ⟨base.scheme, h, (if pqf.1 = "" then "/" else pqf.1), pqf.2.1, pqf.2.2⟩
  | '/' :: rest =>
    let pqf := parsePathQF ('/' :: rest)
    some ⟨base.scheme, base.host, pqf.1, pqf.2.1, pqf.2.2⟩
  | rest =>
    let pqf := parsePathQF rest
    some ⟨base.scheme, base.host,
      String.mk (lastSlashPrefix base.path.toList) ++ pqf.1, pqf.2.1, pqf.2.2⟩

/-! ## Reference resolution (`Page::get_links`, src/page.rs)

The method merges the href and src scans, runs `sort_unstable` then
`dedup` (which removes consecutive duplicates), and resolves each raw
reference: parse as absolute; on `RelativeUrlWithoutBase` join against the
page URL, where a join failure is `panic!` — aborting the run; on any other
parse error the reference is logged and skipped; a parsed URL that cannot
be a base has its path re-joined, a failure there being logged and
skipped. -/

/-- Insertion into a sorted list by the lexicographic string order. -/
def insertSorted (x : String) : List String → List String
  | [] => [x]
  | y :: ys => if x ≤ y then x :: y :: ys else y :: insertSorted x ys

/-- Model of `Vec::sort_unstable` on strings. -/
def sortStrings : List String → List String
  | [] => []
  | x :: xs => insertSorted x (sortStrings xs)

/-- Model of `Vec::dedup`: removes consecutive duplicates. -/
def dedupAdj : List String → List String
  | [] => []
  | [x] => [x]
  | x :: y :: rest =>
    if x = y then dedupAdj (y :: rest) else x :: dedupAdj (y :: rest)

/-- Outcome of `Page::get_links`: the resolved URLs, or a panic aborting
the crawl. -/
inductive LinksOut where
  | ok (urls : List UrlM) : LinksOut
  | panicked : LinksOut
deriving DecidableEq, Repr

/-- Post-parse step of `get_links`: a URL that cannot be a base has its
path joined against the page URL (`self.url.join(based.path())`); a failure
is logged and the reference dropped. -/
def resolveStep2 (base : UrlM) (u : UrlM) : Option UrlM :=
  if cannotBeABase u then urlJoin base u.path else some u

/-- Per-reference resolution loop of `get_links`.  The
`RelativeUrlWithoutBase`-then-join-failure path is `panic!("{e:?}")` in the
source and aborts; the other failure paths print and `continue`. -/
def resolveLoop (base : UrlM) : List String → List UrlM → LinksOut
  | [], acc => LinksOut.ok acc
  | l :: ls, acc =>
    match urlParse l with
    | ParseOut.ok u =>
      match resolveStep2 base u with
      | some v => resolveLoop base ls (acc ++ [v])
      | none => resolveLoop base ls acc
    | ParseOut.relativeUrlWithoutBase =>
      match urlJoin base l with
      | some u =>
        match resolveStep2 base u with
        | some v => resolveLoop base ls (acc ++ [v])
        | none => resolveLoop base ls acc
      | none => LinksOut.panicked
    | ParseOut.otherError => resolveLoop base ls acc

/-- Model of `Page::get_links`: extract, merge, sort, dedup, resolve. -/
def page_get_links (base : UrlM) (html : String) : LinksOut :=
  resolveLoop base
    (dedupAdj (sortStrings (get_href_links html ++ get_src_links html))) []

/-! ## Crawl engine (`PageCrawler::crawl`, src/pagecrawler.rs)

The network (fetch + link extraction of a page) is abstracted as
`web : UrlM → List UrlM`, the resolved links of each page.  The frontier is
a `Vec` used as a stack (`pop` from the end, `append` at the end); it is
modelled top-first, so appending a page's links prepends their reversal.
Fuel drives the recursion; termination is the content of the theorems. -/

/-- Transient crawl state: frontier (top first), `links` (the discovered
list, what `get_links()` returns) and `pages` (the visited set). -/
structure CrawlSt where
  frontier : List UrlM
  links : List UrlM
  pages : List UrlM
deriving DecidableEq, Repr

/-- Outcome of a crawl: final state, or the panic from
`Url::domain().unwrap()` on a domain-less URL. -/
inductive CrawlOut where
  | ok (st : CrawlSt) : CrawlOut
  | panicked : CrawlOut
deriving DecidableEq, Repr

/-- Model of the loop body of `PageCrawler::crawl`: pop; skip if visited;
record; unwrap the current and root domains (panic when absent); stop the
branch when off-host or non-HTML; else mark visited and push the page's
links. -/
def crawlLoop (web : UrlM → List UrlM) (root : UrlM) :
    Nat → CrawlSt → Option CrawlOut
  | 0, _ => none
  | fuel + 1, st =>
    match st.frontier with
    | [] => some (CrawlOut.ok st)
    | u :: rest =>
      if u ∈ st.pages then
        crawlLoop web root fuel ⟨rest, st.links, st.pages⟩
      else
        let links := st.links ++ [u]
        match domainOf u with
        | none => some CrawlOut.panicked
        | some cd =>
          match domainOf root with
          | none => some CrawlOut.panicked
          | some d =>
            if cd ≠ d then
              crawlLoop web root fuel ⟨rest, links, st.pages⟩
            else if !is_url_html u then
              crawlLoop web root fuel ⟨rest, links, st.pages⟩
            else
              crawlLoop web root fuel
                ⟨(web u).reverse ++ rest, links, st.pages ++ [u]⟩

/-- Model of `PageCrawler::crawl` started from the seed URL. -/
def crawl (web : UrlM → List UrlM) (root : UrlM) (fuel : Nat) :
    Option CrawlOut :=
  crawlLoop web root fuel ⟨[root], [], []⟩

/-! ## Concrete instances used by witnesses and counterexamples -/

/-- Page `https://a.example/p1.html` of the two-page cyclic site. -/
def p1Url : UrlM := ⟨"https", HostM.domain "a.example", "/p1.html", none, none⟩

/-- Page `https://a.example/p2.html` of the two-page cyclic site. -/
def p2Url : UrlM := ⟨"https", HostM.domain "a.example", "/p2.html", none, none⟩

/-- Two-page site: p1 links to p2, p2 links back to p1. -/
def twoPageWeb (u : UrlM) : List UrlM :=
  if u = p1Url then [p2Url] else if u = p2Url then [p1Url] else []

/-- Page URL `https://a.example/` used as a resolution base. -/
def baseUrl : UrlM := ⟨"https", HostM.domain "a.example", "/", none, none⟩

/-- URL with an IPv4 host: `Url::host()` is present but `Url::domain()` is
`None`. -/
def ipUrl1 : UrlM := ⟨"http", HostM.ip "127.0.0.1", "/", none, none⟩

/-- Second, different IPv4-host URL. -/
def ipUrl2 : UrlM := ⟨"http", HostM.ip "192.168.0.1", "/", none, none⟩

/-- URL with a mixed-case html path and a query. -/
def qfUrl1 : UrlM :=
  ⟨"https", HostM.domain "a.example", "/Index.HTML", some "q=1", none⟩

/-- URL with the same path but different query and fragment. -/
def qfUrl2 : UrlM :=
  ⟨"https", HostM.domain "a.example", "/Index.HTML", none, some "top"⟩

/-- Scenario database of C2: sites A,B,C,D and links (A→B),(A→C),(A→D),
(B→A), inserted through the store operations. -/
def dbScenario : DB :=
  let d := set_site (set_site (set_site (set_site DB.empty
    ("https://a.example/", 0)) ("https://b.example/", 0))
    ("https://c.example/", 0)) ("https://d.example/", 0)
  let d := (set_link d ("https://a.example/", "https://b.example/")).2
  let d := (set_link d ("https://a.example/", "https://c.example/")).2
  let d := (set_link d ("https://a.example/", "https://d.example/")).2
  (set_link d ("https://b.example/", "https://a.example/")).2

/-- Scenario database of C6: three sites with crawltimes 100, 50, 200. -/
def dbCrawltimes : DB :=
  set_site (set_site (set_site DB.empty
    ("https://a.example/", 100)) ("https://b.example/", 50))
    ("https://c.example/", 200)

/-! ## List helpers for the store theorems -/

/-- Filtering for a key after filtering it away yields nothing. -/
theorem filter_keyNe_keyEq {β : Type} (U : String) (l : List (String × β)) :
    (l.filter (fun r => !(r.1 == U))).filter (fun r => r.1 == U) = [] := by
  rw [List.filter_filter]
  refine List.filter_eq_nil_iff.2 ?_
  intro r _
  by_cases h : r.1 = U <;> simp [h]

/-- Filtering away one key leaves the rows of any other key untouched. -/
theorem filter_keyNe_keyOther {β : Type} (U V : String) (hVU : V ≠ U)
    (l : List (String × β)) :
    (l.filter (fun r => !(r.1 == U))).filter (fun r => r.1 == V) =
      l.filter (fun r => r.1 == V) := by
  rw [List.filter_filter]
  congr 1
  funext r
  by_cases h : r.1 = V
  · simp [h, hVU]
  · simp [h]

/-- Replacing the crawltime of the rows keyed `url` commutes with selecting
those rows. -/
theorem filter_keyEq_mapReplace (url : String) (t : Int) (l : List SiteRow) :
    (l.map (fun r => if r.1 == url then (r.1, t) else r)).filter
        (fun r => r.1 == url) =
      (l.filter (fun r => r.1 == url)).map (fun r => (r.1, t)) := by
  rw [List.filter_map]
  have hcomp : ((fun r : SiteRow => r.1 == url) ∘
      (fun r : SiteRow => if r.1 == url then (r.1, t) else r)) =
      fun r : SiteRow => r.1 == url := by
    funext r
    by_cases h : r.1 = url <;> simp [Function.comp, h]
  rw [hcomp]
  refine List.map_congr_left ?_
  intro r hr
  have hkey : r.1 = url := by simpa using (List.mem_filter.1 hr).2
  simp [hkey]

/-- Replacing the crawltime of the rows keyed `url` leaves the other rows
untouched. -/
theorem filter_keyNe_mapReplace (url : String) (t : Int) (l : List SiteRow) :
    (l.map (fun r => if r.1 == url then (r.1, t) else r)).filter
        (fun r => !(r.1 == url)) =
      l.filter (fun r => !(r.1 == url)) := by
  rw [List.filter_map]
  have hcomp : ((fun r : SiteRow => !(r.1 == url)) ∘
      (fun r : SiteRow => if r.1 == url then (r.1, t) else r)) =
      fun r : SiteRow => !(r.1 == url) := by
    funext r
    by_cases h : r.1 = url <;> simp [Function.comp, h]
  rw [hcomp]
  have hid : ∀ r ∈ l.filter (fun r : SiteRow => !(r.1 == url)),
      (if r.1 == url then (r.1, t) else r) = r := by
    intro r hr
    have hkey : ¬ r.1 = url := by simpa using (List.mem_filter.1 hr).2
    simp [hkey]
  simpa using List.map_congr_left hid

/-- Under unique keys, a present key selects exactly one row. -/
theorem keyFilter_single (url : String) :
    ∀ l : List SiteRow, (l.map Prod.fst).Nodup →
      l.any (fun r => r.1 == url) = true →
      ∃ t', l.filter (fun r => r.1 == url) = [(url, t')] := by
  intro l
  induction l with
  | nil => intro _ h; simp at h
  | cons r l ih =>
    intro hnd hany
    rw [List.map_cons] at hnd
    have hnotin : r.1 ∉ l.map Prod.fst := (List.nodup_cons.1 hnd).1
    have hndl : (l.map Prod.fst).Nodup := (List.nodup_cons.1 hnd).2
    by_cases h : r.1 = url
    · have hrest : l.filter (fun r => r.1 == url) = [] := by
        refine List.filter_eq_nil_iff.2 ?_
        intro x hx
        simp only [beq_iff_eq]
        intro hxu
        exact hnotin (by simpa [h, ← hxu] using List.mem_map_of_mem Prod.fst hx)
      obtain ⟨r1, r2⟩ := r
      have h1 : r1 = url := h
      subst h1
      exact ⟨r2, by simp [List.filter_cons, hrest]⟩
    · have hany' : l.any (fun r => r.1 == url) = true := by
        simpa [List.any_cons, h] using hany
      obtain ⟨t', ht'⟩ := ih hndl hany'
      exact ⟨t', by simp [List.filter_cons, h, ht']⟩

/-! ## Claim theorems -/

/-- C1: `set_link (a, b)` with a source url `a` not stored as a site
returns the referential-integrity error and leaves the database unchanged;
it never silently succeeds. -/
theorem set_link_missing_source_fails (db : DB) (l : LinkRow)
    (h : ∀ r ∈ db.site, r.1 ≠ l.1) :
    (set_link db l).1 = Except.error "FOREIGN KEY constraint failed" ∧
    (set_link db l).2 = db := by
  have hany : db.site.any (fun r => r.1 == l.1) = false := by
    rw [List.any_eq_false]
    intro r hr
    simpa using h r hr
  simp [set_link, hany]

/-- Witness for C1: inserting the link (E→A) into the scenario database,
whose site table has no row for E, fails with the foreign-key error and
stores nothing. -/
theorem set_link_missing_source_fails_witness :
    (∀ r ∈ dbScenario.site, r.1 ≠ "https://e.example/") ∧
    (set_link dbScenario ("https://e.example/", "https://a.example/")).1 =
      Except.error "FOREIGN KEY constraint failed" ∧
    (set_link dbScenario ("https://e.example/", "https://a.example/")).2 =
      dbScenario :=
  ⟨by decide,
    set_link_missing_source_fails dbScenario
      ("https://e.example/", "https://a.example/") (by decide)⟩

/-- C2: deleting a stored site url `U` removes its site row and every link
row whose source is `U`, while the link rows of every other source are
unchanged and still readable. -/
theorem delete_site_cascades (db : DB) (U : String)
    (h : ∃ r ∈ db.site, r.1 = U) :
    get_links_by_srcurl (delete_site_by_url db U) U = [] ∧
    (delete_site_by_url db U).site.filter (fun r => r.1 == U) = [] ∧
    ∀ V, V ≠ U →
      get_links_by_srcurl (delete_site_by_url db U) V =
        get_links_by_srcurl db V := by
  refine ⟨?_, ?_, ?_⟩
  · simpa [get_links_by_srcurl, delete_site_by_url] using
      filter_keyNe_keyEq U db.link
  · simpa [delete_site_by_url] using filter_keyNe_keyEq U db.site
  · intro V hVU
    simpa [get_links_by_srcurl, delete_site_by_url] using
      filter_keyNe_keyOther U V hVU db.link

/-- Witness for C2, the spec scenario: sites {A,B,C,D}, links
(A→B),(A→C),(A→D),(B→A); deleting A leaves 0 links with source A, exactly
the link (B→A) with source B, and no site row A. -/
theorem delete_site_cascades_witness :
    (∃ r ∈ dbScenario.site, r.1 = "https://a.example/") ∧
    get_links_by_srcurl (delete_site_by_url dbScenario "https://a.example/")
      "https://a.example/" = [] ∧
    get_links_by_srcurl (delete_site_by_url dbScenario "https://a.example/")
      "https://b.example/" = [("https://b.example/", "https://a.example/")] ∧
    (delete_site_by_url dbScenario "https://a.example/").site.filter
      (fun r => r.1 == "https://a.example/") = [] := by
  have h := delete_site_cascades dbScenario "https://a.example/" (by decide)
  exact ⟨by decide, h.1,
    (h.2.2 "https://b.example/" (by decide)).trans (by decide), h.2.1⟩

/-- C7: upserting (url, t1) then (url, t2) leaves exactly one site row for
url, carrying crawltime t2; the other rows are untouched, and upsert is
idempotent. -/
theorem set_site_upsert (db : DB) (url : String) (t1 t2 : Int)
    (hnd : (db.site.map Prod.fst).Nodup) :
    (set_site (set_site db (url, t1)) (url, t2)).site.filter
        (fun r => r.1 == url) = [(url, t2)] ∧
    (set_site (set_site db (url, t1)) (url, t2)).site.filter
        (fun r => !(r.1 == url)) = db.site.filter (fun r => !(r.1 == url)) ∧
    set_site (set_site db (url, t2)) (url, t2) = set_site db (url, t2) := by
  by_cases hany : db.site.any (fun r => r.1 == url) = true
  · obtain ⟨t', ht'⟩ := keyFilter_single url db.site hnd hany
    have hany1 : ∀ t : Int,
        (db.site.map (fun r => if r.1 == url then (r.1, t) else r)).any
          (fun r => r.1 == url) = true := by
      intro t
      rw [List.any_map]
      have hc : ((fun r : SiteRow => r.1 == url) ∘
          (fun r : SiteRow => if r.1 == url then (r.1, t) else r)) =
          fun r : SiteRow => r.1 == url := by
        funext r
        by_cases h : r.1 = url <;> simp [Function.comp, h]
      rw [hc]
      exact hany
    have e1 : ∀ t : Int, set_site db (url, t) =
        ⟨db.site.map (fun r => if r.1 == url then (r.1, t) else r), db.link⟩ := by
      intro t
      unfold set_site
      dsimp only
      rw [if_pos hany]
    have e2 : ∀ t t'' : Int,
        set_site (⟨db.site.map (fun r => if r.1 == url then (r.1, t) else r),
            db.link⟩ : DB) (url, t'') =
          ⟨(db.site.map (fun r => if r.1 == url then (r.1, t) else r)).map
              (fun r => if r.1 == url then (r.1, t'') else r), db.link⟩ := by
      intro t t''
      unfold set_site
      dsimp only
      rw [if_pos (hany1 t)]
    refine ⟨?_, ?_, ?_⟩
    · rw [e1 t1, e2 t1 t2]
      dsimp only
      rw [filter_keyEq_mapReplace, filter_keyEq_mapReplace, ht']
      simp
    · rw [e1 t1, e2 t1 t2]
      dsimp only
      rw [filter_keyNe_mapReplace, filter_keyNe_mapReplace]
    · rw [e1 t2, e2 t2 t2]
      have hdup : ((db.site.map (fun r => if r.1 == url then (r.1, t2) else r)).map
          (fun r => if r.1 == url then (r.1, t2) else r)) =
          db.site.map (fun r => if r.1 == url then (r.1, t2) else r) := by
        rw [List.map_map]
        apply List.map_congr_left
        intro r _
        by_cases h : r.1 = url <;> simp [Function.comp, h]
      rw [hdup]
  · have hany' : db.site.any (fun r => r.1 == url) = false :=
      Bool.eq_false_iff.2 hany
    have hnone : ∀ r ∈ db.site, (r.1 == url) = false := by
      intro r hr
      have hne := List.any_eq_false.1 hany' r hr
      simpa using hne
    have e1 : ∀ t : Int, set_site db (url, t) =
        ⟨db.site ++ [(url, t)], db.link⟩ := by
      intro t
      unfold set_site
      dsimp only
      rw [if_neg hany]
    have happ : ∀ t : Int, ((db.site ++ [(url, t)]).any
        (fun r => r.1 == url)) = true := by
      intro t
      simp
    have e2 : ∀ t t'' : Int,
        set_site (⟨db.site ++ [(url, t)], db.link⟩ : DB) (url, t'') =
          ⟨(db.site ++ [(url, t)]).map
              (fun r => if r.1 == url then (r.1, t'') else r), db.link⟩ := by
      intro t t''
      unfold set_site
      dsimp only
      rw [if_pos (happ t)]
    have hmapid : ∀ t'' : Int, db.site.map
        (fun r => if r.1 == url then (r.1, t'') else r) = db.site := by
      intro t''
      have : ∀ r ∈ db.site,
          (if r.1 == url then (r.1, t'') else r) = r := by
        intro r hr
        simp [hnone r hr]
      simpa using List.map_congr_left this
    refine ⟨?_, ?_, ?_⟩
    · rw [e1 t1, e2 t1 t2]
      dsimp only
      rw [List.map_append, List.filter_append, filter_keyEq_mapReplace]
      rw [List.filter_eq_nil_iff.2 (fun r hr => by simp [hnone r hr])]
      simp
    · rw [e1 t1, e2 t1 t2]
      dsimp only
      rw [List.map_append, List.filter_append, filter_keyNe_mapReplace]
      simp
    · rw [e1 t2, e2 t2 t2]
      rw [List.map_append, hmapid t2]
      simp

/-- Witness for C7: upserting B with crawltime 7 then 9 into the scenario
database leaves exactly one B row, with crawltime 9. -/
theorem set_site_upsert_witness :
    (dbScenario.site.map Prod.fst).Nodup ∧
    (set_site (set_site dbScenario ("https://b.example/", 7))
        ("https://b.example/", 9)).site.filter
        (fun r => r.1 == "https://b.example/") = [("https://b.example/", 9)] :=
  ⟨by decide,
    (set_site_upsert dbScenario "https://b.example/" 7 9 (by decide)).1⟩

/-- Prefix test of a list against itself with any tail appended. -/
theorem isPrefixOf_append_self : ∀ (l t : List Char), l.isPrefixOf (l ++ t) = true := by
  intro l
  induction l with
  | nil => intro t; simp [List.isPrefixOf]
  | cons c cs ih => intro t; simp [List.isPrefixOf, ih]

/-- Quote- and newline-free captures grab exactly up to the closing quote. -/
theorem grabValue_clean : ∀ (r t : List Char), '"' ∉ r → '\n' ∉ r →
    grabValue (r ++ '"' :: t) = some (r, t) := by
  intro r
  induction r with
  | nil => intro t _ _; simp [grabValue]
  | cons c cs ih =>
    intro t hq hn
    have hcq : ¬ c = '"' := fun hc => hq (by simp [hc])
    have hcn : ¬ c = '\n' := fun hc => hn (by simp [hc])
    have hq' : '"' ∉ cs := fun hm => hq (List.mem_cons_of_mem _ hm)
    have hn' : '\n' ∉ cs := fun hm => hn (List.mem_cons_of_mem _ hm)
    simp [grabValue, hcq, hcn, ih t hq' hn']

/-- Scanning markup built from clean references returns exactly those
references, in order and with multiplicity. -/
theorem scanAttrF_mkAttrBlocks (pat : List Char) (hp : pat ≠ []) :
    ∀ (rs : List (List Char)) (fuel : Nat),
      (∀ r ∈ rs, '"' ∉ r ∧ '\n' ∉ r) →
      (mkAttrBlocks pat rs).length ≤ fuel →
      scanAttrF pat fuel (mkAttrBlocks pat rs) = rs := by
  intro rs
  induction rs with
  | nil =>
    intro fuel _ _
    cases fuel <;> rfl
  | cons r rs ih =>
    intro fuel hok hlen
    obtain ⟨c, cs, rfl⟩ : ∃ c cs, pat = c :: cs := by
      cases pat with
      | nil => exact absurd rfl hp
      | cons c cs => exact ⟨c, cs, rfl⟩
    have hblocks : mkAttrBlocks (c :: cs) (r :: rs) =
        c :: (cs ++ (r ++ '"' :: mkAttrBlocks (c :: cs) rs)) := by
      simp [mkAttrBlocks]
    cases fuel with
    | zero =>
      rw [hblocks] at hlen
      simp at hlen
    | succ fuel =>
      rw [hblocks]
      have hpre : (c :: cs).isPrefixOf
          (c :: (cs ++ (r ++ '"' :: mkAttrBlocks (c :: cs) rs))) = true := by
        simpa using
          isPrefixOf_append_self (c :: cs) (r ++ '"' :: mkAttrBlocks (c :: cs) rs)
      have hdrop : (c :: (cs ++ (r ++ '"' :: mkAttrBlocks (c :: cs) rs))).drop
          (c :: cs).length = r ++ '"' :: mkAttrBlocks (c :: cs) rs := by
        simp [List.drop_left]
      have hgrab : grabValue (r ++ '"' :: mkAttrBlocks (c :: cs) rs) =
          some (r, mkAttrBlocks (c :: cs) rs) :=
        grabValue_clean r _ (hok r (List.mem_cons_self r rs)).1
          (hok r (List.mem_cons_self r rs)).2
      simp only [scanAttrF, hpre, if_true, hdrop, hgrab]
      congr 1
      apply ih
      · intro x hx
        exact hok x (List.mem_cons_of_mem _ hx)
      · rw [hblocks] at hlen
        simp only [List.length_cons, List.length_append] at hlen ⊢
        omega

/-- Strings rebuilt from their character lists are unchanged. -/
theorem mk_toList (s : String) : String.mk s.toList = s := rfl

/-- Round trip of the scan over generated markup, at the string level. -/
theorem scan_mk_roundtrip (pat : List Char) (hp : pat ≠ []) (rs : List String)
    (h : ∀ r ∈ rs, '"' ∉ r.toList ∧ '\n' ∉ r.toList) :
    (scanAttr pat
        (String.mk (mkAttrBlocks pat (rs.map String.toList))).toList).map
      String.mk = rs := by
  have hlist : (String.mk (mkAttrBlocks pat (rs.map String.toList))).toList =
      mkAttrBlocks pat (rs.map String.toList) := rfl
  rw [hlist]
  unfold scanAttr
  rw [scanAttrF_mkAttrBlocks pat hp (rs.map String.toList) _ ?hok (le_refl _)]
  · rw [List.map_map]
    have hpt : ∀ s ∈ rs, (String.mk ∘ String.toList) s = s := fun s _ => rfl
    rw [List.map_congr_left hpt]
    simp
  case hok =>
    intro r hr
    obtain ⟨s, hs, rfl⟩ := List.mem_map.1 hr
    exact h s hs

/-- C3: the href and src extraction scans return the raw attribute values
in document order, unmerged and undeduplicated: markup wrapping any list of
quote- and newline-free references (duplicates included) scans back to
exactly that list, so a reference occurring k times appears k times and in
order; no merging, reordering or deduplication happens inside the scans
(the later sort/dedup in `page_get_links` is the caller's, per the spec). -/
theorem extraction_document_order (rs : List String)
    (h : ∀ r ∈ rs, '"' ∉ r.toList ∧ '\n' ∉ r.toList) :
    get_href_links (mkHrefMarkup rs) = rs ∧
    get_src_links (mkSrcMarkup rs) = rs :=
  ⟨scan_mk_roundtrip "href=\"".toList (by decide) rs h,
   scan_mk_roundtrip "src=\"".toList (by decide) rs h⟩

/-- Witness for C3: the reference list [a.html, b.png, a.html], with a
duplicate, is returned verbatim by both scans. -/
theorem extraction_document_order_witness :
    (∀ r ∈ ["a.html", "b.png", "a.html"],
        '"' ∉ r.toList ∧ '\n' ∉ r.toList) ∧
    get_href_links (mkHrefMarkup ["a.html", "b.png", "a.html"]) =
      ["a.html", "b.png", "a.html"] ∧
    get_src_links (mkSrcMarkup ["a.html", "b.png", "a.html"]) =
      ["a.html", "b.png", "a.html"] := by
  have h := extraction_document_order ["a.html", "b.png", "a.html"] (by decide)
  exact ⟨by decide, h.1, h.2⟩

/-- Membership of the selected minimal-crawltime row. -/
theorem minCrawlRow_mem : ∀ (l : List SiteRow) (r : SiteRow),
    minCrawlRow r l ∈ r :: l := by
  intro l
  induction l with
  | nil => intro r; simp [minCrawlRow]
  | cons s ss ih =>
    intro r
    by_cases h : s.2 < r.2
    · simp only [minCrawlRow]
      rw [if_pos h]
      exact List.mem_cons_of_mem r (ih s)
    · simp only [minCrawlRow]
      rw [if_neg h]
      rcases List.mem_cons.1 (ih r) with h1 | h1
      · simp [h1]
      · exact List.mem_cons_of_mem _ (List.mem_cons_of_mem _ h1)

/-- Minimality of the selected row's crawltime. -/
theorem minCrawlRow_le : ∀ (l : List SiteRow) (r x : SiteRow),
    x ∈ r :: l → (minCrawlRow r l).2 ≤ x.2 := by
  intro l
  induction l with
  | nil =>
    intro r x hx
    rcases List.mem_cons.1 hx with h | h
    · rw [h]
      simp [minCrawlRow]
    · simp at h
  | cons s ss ih =>
    intro r x hx
    by_cases h : s.2 < r.2
    · simp only [minCrawlRow]
      rw [if_pos h]
      rcases List.mem_cons.1 hx with h1 | h1
      · rw [h1]
        exact le_trans (ih s s (List.mem_cons_self s ss)) (le_of_lt h)
      · exact ih s x h1
    · simp only [minCrawlRow]
      rw [if_neg h]
      rcases List.mem_cons.1 hx with h1 | h1
      · rw [h1]
        exact ih r r (List.mem_cons_self r ss)
      · rcases List.mem_cons.1 h1 with h2 | h2
        · rw [h2]
          exact le_trans (ih r r (List.mem_cons_self r ss)) (not_lt.1 h)
        · exact ih r x (List.mem_cons_of_mem r h2)

/-- C6: on an empty site table `SELECT url, MIN(crawltime)` yields one
all-NULL row and the mapping `row.get(0).unwrap()` panics, so
get_site_with_oldest_crawltime does not return None; on a non-empty table
it returns a stored row of minimal crawltime (ties arbitrary). -/
theorem oldest_crawltime_behaviour :
    get_site_with_oldest_crawltime DB.empty = QueryOut.panicked ∧
    ∀ db : DB, db.site ≠ [] →
      ∃ s, get_site_with_oldest_crawltime db = QueryOut.ok (some s) ∧
        s ∈ db.site ∧ ∀ r ∈ db.site, s.2 ≤ r.2 := by
  refine ⟨rfl, ?_⟩
  intro db hne
  cases hsite : db.site with
  | nil => exact absurd hsite hne
  | cons s ss =>
    refine ⟨minCrawlRow s ss, ?_, ?_, ?_⟩
    · simp [get_site_with_oldest_crawltime, hsite]
    · exact minCrawlRow_mem ss s
    · intro r hr
      exact minCrawlRow_le ss s r hr

/-- Witness for C6: over crawltimes {100, 50, 200} the returned site is the
one with crawltime 50, and the returned crawltime is minimal. -/
theorem oldest_crawltime_behaviour_witness :
    dbCrawltimes.site ≠ [] ∧
    (∃ s, get_site_with_oldest_crawltime dbCrawltimes = QueryOut.ok (some s) ∧
      s ∈ dbCrawltimes.site ∧ ∀ r ∈ dbCrawltimes.site, s.2 ≤ r.2) ∧
    get_site_with_oldest_crawltime dbCrawltimes =
      QueryOut.ok (some ("https://b.example/", 50)) :=
  ⟨by decide, oldest_crawltime_behaviour.2 dbCrawltimes (by decide), by decide⟩

/-- C8: is_url_html depends only on the URL's path, independent of query
and fragment, and holds exactly when the case-folded path ends in `.html`
or `.htm` or contains no `.`; every other extension is non-HTML. -/
theorem is_url_html_path_only (u v : UrlM) (hpath : u.path = v.path) :
    is_url_html u = is_url_html v ∧
    (is_url_html u = true ↔
      (".html".toList.isSuffixOf (u.path.toList.map Char.toLower) = true ∨
        ".htm".toList.isSuffixOf (u.path.toList.map Char.toLower) = true ∨
        (u.path.toList.map Char.toLower).contains '.' = false)) := by
  constructor
  · simp [is_url_html, hpath]
  · simp [is_url_html, or_assoc]

/-- Witness for C8: `/Index.HTML` with a query classifies the same as with
a fragment instead, and classifies as HTML. -/
theorem is_url_html_path_only_witness :
    qfUrl1.path = qfUrl2.path ∧
    is_url_html qfUrl1 = is_url_html qfUrl2 ∧
    is_url_html qfUrl1 = true := by
  have h := is_url_html_path_only qfUrl1 qfUrl2 rfl
  exact ⟨rfl, h.1, by decide⟩

/-- C9 counterexample: two URLs with present but distinct IP-address hosts.
is_in_site compares `Url::domain()`, which is None for both, so it returns
true although the hosts are present and differ — refuting "true iff the
hosts are exactly equal" for URLs that have hosts. -/
theorem is_in_site_ip_counterexample :
    is_in_site ipUrl1 ipUrl2 = true ∧ ipUrl1.host ≠ ipUrl2.host ∧
    ipUrl1.host ≠ HostM.none ∧ ipUrl2.host ≠ HostM.none := by decide

/-- C9 amended: for URLs whose hosts are DNS domains (the precondition the
source comment documents), is_in_site is true exactly when the hosts are
equal. -/
theorem is_in_site_domain_hosts (u s : UrlM)
    (hu : (domainOf u).isSome) (hs : (domainOf s).isSome) :
    (is_in_site u s = true ↔ u.host = s.host) := by
  cases hcu : u.host with
  | domain a =>
    cases hcs : s.host with
    | domain b => simp [is_in_site, domainOf, hcu, hcs]
    | none => simp [domainOf, hcs] at hs
    | ip b => simp [domainOf, hcs] at hs
  | none => simp [domainOf, hcu] at hu
  | ip a => simp [domainOf, hcu] at hu

/-- Witness for C9's amended statement: two URLs on host a.example are
classified in-site. -/
theorem is_in_site_domain_hosts_witness :
    (domainOf baseUrl).isSome ∧ (domainOf p1Url).isSome ∧
    is_in_site baseUrl p1Url = true :=
  ⟨by decide, by decide,
    (is_in_site_domain_hosts baseUrl p1Url (by decide) (by decide)).mpr
      (by decide)⟩

/-- C10: popping an unvisited URL whose `Url::domain()` is None (an
IP-address host) hits `currenturl.domain().unwrap()` and the whole crawl
run aborts with a panic instead of skipping the URL. -/
theorem crawl_domainless_pop_panics (web : UrlM → List UrlM) (root u : UrlM)
    (rest links pages : List UrlM) (fuel : Nat)
    (hmem : u ∉ pages) (hdom : domainOf u = none) :
    crawlLoop web root (fuel + 1) ⟨u :: rest, links, pages⟩ =
      some CrawlOut.panicked := by
  simp [crawlLoop, hmem, hdom]

/-- Witness for C10: a frontier holding the IP-host URL panics at once. -/
theorem crawl_domainless_pop_panics_witness :
    (ipUrl1 ∉ ([] : List UrlM)) ∧ domainOf ipUrl1 = none ∧
    crawlLoop (fun _ => []) baseUrl 1 ⟨[ipUrl1], [], []⟩ =
      some CrawlOut.panicked :=
  ⟨by decide, by decide,
    crawl_domainless_pop_panics (fun _ => []) baseUrl ipUrl1 [] [] [] 0
      (by decide) (by decide)⟩

/-- C5 counterexample: the raw reference `//[::` (scheme-relative with an
unclosed IPv6 bracket) parses as RelativeUrlWithoutBase and its join
against the page URL fails, so `Page::get_links` hits the
`Err(e) => panic!` arm: the unjoinable reference aborts resolution instead
of being logged, dropped and skipped. -/
theorem unjoinable_reference_panics :
    get_href_links "href=\"//[::\"" = ["//[::"] ∧
    urlParse "//[::" = ParseOut.relativeUrlWithoutBase ∧
    urlJoin baseUrl "//[::" = none ∧
    page_get_links baseUrl "href=\"//[::\"" = LinksOut.panicked := by
  refine ⟨?_, ?_, ?_, ?_⟩ <;> decide

/-- C5 amended: a reference failing to parse for a reason other than being
relative is logged, dropped, and resolution of the remaining references
continues; but a relative reference whose join against the page URL fails
panics, aborting resolution and the crawl. -/
theorem resolution_error_paths (base : UrlM) (l : String) (ls : List String)
    (acc : List UrlM) :
    (urlParse l = ParseOut.otherError →
      resolveLoop base (l :: ls) acc = resolveLoop base ls acc) ∧
    (urlParse l = ParseOut.relativeUrlWithoutBase → urlJoin base l = none →
      resolveLoop base (l :: ls) acc = LinksOut.panicked) := by
  constructor
  · intro h
    simp [resolveLoop, h]
  · intro h1 h2
    simp [resolveLoop, h1, h2]

/-- Witness for C5's amended statement: `https://` (empty host) is dropped
with resolution continuing; `//[::` panics. -/
theorem resolution_error_paths_witness :
    (urlParse "https://" = ParseOut.otherError ∧
      resolveLoop baseUrl ["https://"] [] = resolveLoop baseUrl [] []) ∧
    (urlParse "//[::" = ParseOut.relativeUrlWithoutBase ∧
      urlJoin baseUrl "//[::" = none ∧
      resolveLoop baseUrl ["//[::"] [] = LinksOut.panicked) :=
  ⟨⟨by decide, (resolution_error_paths baseUrl "https://" [] []).1 (by decide)⟩,
   ⟨by decide, by decide,
     (resolution_error_paths baseUrl "//[::" [] []).2 (by decide) (by decide)⟩⟩

/-- Step equation: an empty frontier stops the loop with the final state. -/
theorem crawlLoop_frontier_nil (web : UrlM → List UrlM) (root : UrlM)
    (fuel : Nat) (st : CrawlSt) (h : st.frontier = []) :
    crawlLoop web root (fuel + 1) st = some (CrawlOut.ok st) := by
  simp [crawlLoop, h]

/-- Step equation: a visited URL is skipped without being recorded. -/
theorem crawlLoop_step_skip (web : UrlM → List UrlM) (root : UrlM)
    (fuel : Nat) (st : CrawlSt) (u : UrlM) (rest : List UrlM)
    (hf : st.frontier = u :: rest) (hmem : u ∈ st.pages) :
    crawlLoop web root (fuel + 1) st =
      crawlLoop web root fuel ⟨rest, st.links, st.pages⟩ := by
  simp [crawlLoop, hf, hmem]

/-- Step equation: an off-host URL is recorded but not expanded. -/
theorem crawlLoop_step_offhost (web : UrlM → List UrlM) (root : UrlM)
    (fuel : Nat) (st : CrawlSt) (u : UrlM) (rest : List UrlM)
    (cd d : String) (hf : st.frontier = u :: rest) (hmem : u ∉ st.pages)
    (hcd : domainOf u = some cd) (hd : domainOf root = some d)
    (hne : cd ≠ d) :
    crawlLoop web root (fuel + 1) st =
      crawlLoop web root fuel ⟨rest, st.links ++ [u], st.pages⟩ := by
  simp [crawlLoop, hf, hmem, hcd, hd, hne]

/-- Step equation: a same-host non-HTML URL is recorded but not expanded. -/
theorem crawlLoop_step_nonhtml (web : UrlM → List UrlM) (root : UrlM)
    (fuel : Nat) (st : CrawlSt) (u : UrlM) (rest : List UrlM)
    (cd d : String) (hf : st.frontier = u :: rest) (hmem : u ∉ st.pages)
    (hcd : domainOf u = some cd) (hd : domainOf root = some d)
    (heq : cd = d) (hhtml : is_url_html u = false) :
    crawlLoop web root (fuel + 1) st =
      crawlLoop web root fuel ⟨rest, st.links ++ [u], st.pages⟩ := by
  simp [crawlLoop, hf, hmem, hcd, hd, heq, hhtml]

/-- Step equation: a same-host HTML URL is recorded, marked visited, and
its links are pushed. -/
theorem crawlLoop_step_expand (web : UrlM → List UrlM) (root : UrlM)
    (fuel : Nat) (st : CrawlSt) (u : UrlM) (rest : List UrlM)
    (cd d : String) (hf : st.frontier = u :: rest) (hmem : u ∉ st.pages)
    (hcd : domainOf u = some cd) (hd : domainOf root = some d)
    (heq : cd = d) (hhtml : is_url_html u = true) :
    crawlLoop web root (fuel + 1) st =
      crawlLoop web root fuel
        ⟨(web u).reverse ++ rest, st.links ++ [u], st.pages ++ [u]⟩ := by
  simp [crawlLoop, hf, hmem, hcd, hd, heq, hhtml]

/-- Marking one more page visited strictly shrinks the unvisited part of
the finite URL domain. -/
theorem card_filter_push (D : Finset UrlM) (pages : List UrlM) (u : UrlM)
    (huD : u ∈ D) (hmem : u ∉ pages) :
    (D.filter (fun v => v ∉ pages ++ [u])).card + 1 ≤
      (D.filter (fun v => v ∉ pages)).card := by
  have hsubset : D.filter (fun v => v ∉ pages ++ [u]) ⊆
      (D.filter (fun v => v ∉ pages)).erase u := by
    intro v hv
    rw [Finset.mem_filter] at hv
    rw [Finset.mem_erase, Finset.mem_filter]
    refine ⟨?_, hv.1, fun hp => hv.2 (List.mem_append_left _ hp)⟩
    intro hvu
    exact hv.2 (by rw [hvu]; exact List.mem_append_right _ (List.mem_singleton.2 rfl))
  have hu : u ∈ D.filter (fun v => v ∉ pages) := Finset.mem_filter.2 ⟨huD, hmem⟩
  have h1 := Finset.card_le_card hsubset
  have h2 := Finset.card_erase_of_mem hu
  have h3 : 1 ≤ (D.filter (fun v => v ∉ pages)).card := Finset.card_pos.2 ⟨u, hu⟩
  omega

/-- Termination core: when the frontier stays inside a finite,
link-closed set of URLs that all have domains, the loop empties its
frontier within some fuel and returns normally. -/
theorem crawlLoop_term (web : UrlM → List UrlM) (root : UrlM) (D : Finset UrlM)
    (hroot : root ∈ D) (hclosed : ∀ u ∈ D, ∀ v ∈ web u, v ∈ D)
    (hdom : ∀ u ∈ D, (domainOf u).isSome) :
    ∀ (c f : Nat) (st : CrawlSt),
      (∀ u ∈ st.frontier, u ∈ D) →
      (D.filter (fun u => u ∉ st.pages)).card ≤ c →
      st.frontier.length ≤ f →
      ∃ fuel st', crawlLoop web root fuel st = some (CrawlOut.ok st') := by
  intro c
  induction c with
  | zero =>
    intro f
    induction f with
    | zero =>
      intro st hsub hc hf
      have hnil : st.frontier = [] := List.length_eq_zero.1 (Nat.le_zero.1 hf)
      exact ⟨1, st, crawlLoop_frontier_nil web root 0 st hnil⟩
    | succ f ihf =>
      intro st hsub hc hf
      cases hfr : st.frontier with
      | nil => exact ⟨1, st, crawlLoop_frontier_nil web root 0 st hfr⟩
      | cons u rest =>
        have huD : u ∈ D := hsub u (by rw [hfr]; exact List.mem_cons_self u rest)
        have hsubrest : ∀ v ∈ rest, v ∈ D := fun v hv =>
          hsub v (by rw [hfr]; exact List.mem_cons_of_mem u hv)
        have hlenrest : rest.length ≤ f := by
          have hlen := hf
          rw [hfr] at hlen
          simpa using hlen
        by_cases hmem : u ∈ st.pages
        · obtain ⟨fuel, st', hrun⟩ :=
            ihf ⟨rest, st.links, st.pages⟩ hsubrest hc hlenrest
          refine ⟨fuel + 1, st', ?_⟩
          rw [crawlLoop_step_skip web root fuel st u rest hfr hmem]
          exact hrun
        · exfalso
          have hu : u ∈ D.filter (fun v => v ∉ st.pages) :=
            Finset.mem_filter.2 ⟨huD, hmem⟩
          have hpos : 0 < (D.filter (fun v => v ∉ st.pages)).card :=
            Finset.card_pos.2 ⟨u, hu⟩
          omega
  | succ c ihc =>
    intro f
    induction f with
    | zero =>
      intro st hsub hc hf
      have hnil : st.frontier = [] := List.length_eq_zero.1 (Nat.le_zero.1 hf)
      exact ⟨1, st, crawlLoop_frontier_nil web root 0 st hnil⟩
    | succ f ihf =>
      intro st hsub hc hf
      cases hfr : st.frontier with
      | nil => exact ⟨1, st, crawlLoop_frontier_nil web root 0 st hfr⟩
      | cons u rest =>
        have huD : u ∈ D := hsub u (by rw [hfr]; exact List.mem_cons_self u rest)
        have hsubrest : ∀ v ∈ rest, v ∈ D := fun v hv =>
          hsub v (by rw [hfr]; exact List.mem_cons_of_mem u hv)
        have hlenrest : rest.length ≤ f := by
          have hlen := hf
          rw [hfr] at hlen
          simpa using hlen
        by_cases hmem : u ∈ st.pages
        · obtain ⟨fuel, st', hrun⟩ :=
            ihf ⟨rest, st.links, st.pages⟩ hsubrest hc hlenrest
          refine ⟨fuel + 1, st', ?_⟩
          rw [crawlLoop_step_skip web root fuel st u rest hfr hmem]
          exact hrun
        · obtain ⟨cd, hcd⟩ := Option.isSome_iff_exists.1 (hdom u huD)
          obtain ⟨d, hd⟩ := Option.isSome_iff_exists.1 (hdom root hroot)
          by_cases hcdd : cd = d
          · by_cases hhtml : is_url_html u = true
            · have hcard := card_filter_push D st.pages u huD hmem
              obtain ⟨fuel, st', hrun⟩ :=
                ihc ((web u).reverse ++ rest).length
                  ⟨(web u).reverse ++ rest, st.links ++ [u], st.pages ++ [u]⟩
                  (by
                    intro v hv
                    rcases List.mem_append.1 hv with h1 | h1
                    · exact hclosed u huD v (List.mem_reverse.1 h1)
                    · exact hsubrest v h1)
                  (by
                    show (D.filter (fun v => v ∉ st.pages ++ [u])).card ≤ c
                    have hle : (D.filter (fun v => v ∉ st.pages)).card ≤ c + 1 := hc
                    omega)
                  (le_refl _)
              refine ⟨fuel + 1, st', ?_⟩
              rw [crawlLoop_step_expand web root fuel st u rest cd d hfr hmem
                hcd hd hcdd hhtml]
              exact hrun
            · have hb : is_url_html u = false := by
                simpa using hhtml
              obtain ⟨fuel, st', hrun⟩ :=
                ihf ⟨rest, st.links ++ [u], st.pages⟩ hsubrest hc hlenrest
              refine ⟨fuel + 1, st', ?_⟩
              rw [crawlLoop_step_nonhtml web root fuel st u rest cd d hfr hmem
                hcd hd hcdd hb]
              exact hrun
          · obtain ⟨fuel, st', hrun⟩ :=
              ihf ⟨rest, st.links ++ [u], st.pages⟩ hsubrest hc hlenrest
            refine ⟨fuel + 1, st', ?_⟩
            rw [crawlLoop_step_offhost web root fuel st u rest cd d hfr hmem
              hcd hd hcdd]
            exact hrun

/-- C4: the crawl terminates on every finite link-closed URL set whose
members have domains — cycles included — because the visited set gates
re-processing of popped URLs; and on the two-page cyclic site the loop
stops with discovered list [p1, p2] (already duplicate-free), i.e. exactly
{p1, p2} after the caller's dedup of getLinks(). -/
theorem crawl_terminates (web : UrlM → List UrlM) (root : UrlM)
    (D : Finset UrlM) (hroot : root ∈ D)
    (hclosed : ∀ u ∈ D, ∀ v ∈ web u, v ∈ D)
    (hdom : ∀ u ∈ D, (domainOf u).isSome) :
    (∃ fuel st, crawl web root fuel = some (CrawlOut.ok st)) ∧
    crawl twoPageWeb p1Url 5 =
      some (CrawlOut.ok ⟨[], [p1Url, p2Url], [p1Url, p2Url]⟩) := by
  constructor
  · refine crawlLoop_term web root D hroot hclosed hdom
      (D.filter (fun u => u ∉ ([] : List UrlM))).card 1 ⟨[root], [], []⟩
      ?_ (le_refl _) (by simp)
    intro u hu
    rw [List.mem_singleton.1 hu]
    exact hroot
  · decide

/-- Witness for C4: the two-page cyclic site {p1, p2} with p1 ↔ p2 links
satisfies the finiteness hypotheses, terminates, and discovers exactly
p1 and p2. -/
theorem crawl_terminates_witness :
    (p1Url ∈ ({p1Url, p2Url} : Finset UrlM)) ∧
    (∃ fuel st, crawl twoPageWeb p1Url fuel = some (CrawlOut.ok st)) ∧
    crawl twoPageWeb p1Url 5 =
      some (CrawlOut.ok ⟨[], [p1Url, p2Url], [p1Url, p2Url]⟩) := by
  have h := crawl_terminates twoPageWeb p1Url {p1Url, p2Url} (by decide)
    (by decide) (by decide)
  exact ⟨by decide, h.1, h.2⟩

end Neomap
